import Mathlib

/-!
Verification development for the `elref` reference-resolution and caching
engine (repository `evnp/elref`).

The repository holds two variants of the same `ElRef` class:
  * `src/index.js` — the singular/list variant (namespace `V1` below);
  * `src/unnamed/part_001` — the async-capable variant with a separate
    `listCache` and a `wait` view (namespace `V2` below).

Shallow embedding conventions:
  * The host DOM tree is modelled by the inductive `Elem` (node identity =
    the `id` field; JS reference equality on nodes is modelled as id
    equality, as in a well-formed document all node references are
    distinct objects).
  * The external query capability (`querySelector` / `querySelectorAll`)
    is modelled for attribute selectors of the exact shape the engine
    builds, `[attr="name"]`: an element matches such a selector string
    iff it carries that attribute/value pair.
  * JS values that can appear through the engine are modelled by `JSVal`;
    a missing object key reads as `JSVal.undef`, `querySelector`'s "no
    match" result is `JSVal.nullv`.
  * Mutable JS objects used as caches live in an explicit heap (`World`):
    each instance stores a heap reference (`cacheRef`), so cache sharing
    by reference between derived views is expressible.
  * Invocations of the pluggable query primitive are made observable as a
    trace (`List QueryCall`): each call records the root node and the
    selector string passed.  "The resolver was not invoked" is stated as
    an empty trace.
-/

namespace ElRefSpec

/-- A DOM element: identity, attributes, optional shadow root, children.
The shadow root is inert payload for containment/query purposes (neither
`Node.contains` nor `querySelector` crosses a shadow boundary); it is read
only by the constructor's `root.shadowRoot || root` normalization. -/
inductive Elem : Type where
  | mk : Nat → List (String × String) → Option Elem → List Elem → Elem

def Elem.id : Elem → Nat
  | .mk i _ _ _ => i

def Elem.attrs : Elem → List (String × String)
  | .mk _ a _ _ => a

def Elem.shadow : Elem → Option Elem
  | .mk _ _ sh _ => sh

def Elem.children : Elem → List Elem
  | .mk _ _ _ cs => cs

/-- Models `root.shadowRoot || root` from both constructors. -/
def enterShadow (e : Elem) : Elem :=
  match e.shadow with
  | some sh => sh
  | none => e

/-- The selector string the engine builds for a name. -/
def attrSelector (attr name : String) : String :=
  "[" ++ attr ++ "=\"" ++ name ++ "\"]"

/-- Model of CSS attribute-selector matching: an element matches the string
`[k="v"]` iff it has attribute `k` with value `v`.  (External capability:
the engine only ever builds selectors of this shape.) -/
def selMatches (sel : String) (e : Elem) : Bool :=
  e.attrs.any (fun kv => sel == attrSelector kv.1 kv.2)

mutual
/-- Embeds `Node.contains`: inclusive descendant test, by node identity. -/
def containsB : Elem → Elem → Bool
  | .mk i _ _ cs, t => (i == t.id) || containsListB cs t

def containsListB : List Elem → Elem → Bool
  | [], _ => false
  | c :: cs, t => containsB c t || containsListB cs t
end

mutual
/-- First descendant-or-self of a node matching `sel`, preorder. -/
def qsNode : Elem → String → Option Elem
  | .mk i a sh cs, sel =>
    if selMatches sel (.mk i a sh cs) then some (.mk i a sh cs) else qsList cs sel

def qsList : List Elem → String → Option Elem
  | [], _ => none
  | c :: cs, sel =>
    match qsNode c sel with
    | some e => some e
    | none => qsList cs sel
end

mutual
/-- All descendants-or-self of a node matching `sel`, in document
(preorder) order. -/
def qsaNode : Elem → String → List Elem
  | .mk i a sh cs, sel =>
    (if selMatches sel (.mk i a sh cs) then [Elem.mk i a sh cs] else []) ++ qsaList cs sel

def qsaList : List Elem → String → List Elem
  | [], _ => []
  | c :: cs, sel => qsaNode c sel ++ qsaList cs sel
end

/-- Embeds `root.querySelector(sel)`: first matching strict descendant. -/
def querySelector (root : Elem) (sel : String) : Option Elem :=
  qsList root.children sel

/-- Embeds `[...root.querySelectorAll(sel)]`: all matching strict descendants in
document order. -/
def querySelectorAll (root : Elem) (sel : String) : List Elem :=
  qsaList root.children sel

/-! ### JS values -/

/-- The JS values that flow through the engine: `undefined` (also what a
missing object key reads as), `null` (`querySelector`'s no-match result),
primitives, a single element, or an array of elements. -/
inductive JSVal : Type where
  | undef : JSVal
  | nullv : JSVal
  | bool : Bool → JSVal
  | num : Int → JSVal
  | str : String → JSVal
  | node : Elem → JSVal
  | elist : List Elem → JSVal

/-- JS truthiness of a `JSVal` (note: an empty array is truthy). -/
def jsTruthy : JSVal → Bool
  | .undef => false
  | .nullv => false
  | .bool b => b
  | .num n => n != 0
  | .str s => !s.isEmpty
  | .node _ => true
  | .elist _ => true

/-- Embeds `Array.isArray(cached) ? cached : [cached]` from `getWithUpdate`:
normalize a cached value to a sequence for the validity check. -/
def normalizeSeq : JSVal → List JSVal
  | .elist es => es.map JSVal.node
  | v => [v]

/-- Embeds `element && this.root.contains(element)` for one element of the
normalized sequence.  A truthy non-node value would make the real
`Node.contains` call throw; such values can never be produced by the query
primitives, and the model treats them as failing the check. -/
def elementOk (root : Elem) (x : JSVal) : Bool :=
  jsTruthy x &&
    (match x with
     | .node e => containsB root e
     | _ => false)

/-- The validity check of `getWithUpdate` (both variants):
`!!elements.length && elements.every(element => element && this.root.contains(element))`. -/
def validB (root : Elem) (v : JSVal) : Bool :=
  let elements := normalizeSeq v
  !elements.isEmpty && elements.all (elementOk root)

/-! ### Heap of cache objects -/

/-- A JS cache object: key lookup, with missing keys reading as
`undefined`. -/
def Cache : Type := String → JSVal

def emptyCache : Cache := fun _ => JSVal.undef

/-- The mutable store: cache objects addressed by reference, plus an
allocation counter.  Cache sharing by reference between views is
expressed by two instances holding the same `Nat` reference. -/
structure World : Type where
  heap : Nat → Cache
  next : Nat

def World.empty : World := ⟨fun _ => emptyCache, 0⟩

/-- Reads `this.cache[name]`. -/
def cacheAt (w : World) (ref : Nat) (name : String) : JSVal :=
  w.heap ref name

/-- Writes `this.cache[name] = value`. -/
def setCache (w : World) (ref : Nat) (name : String) (v : JSVal) : World :=
  { w with heap := fun r =>
      if r = ref then (fun m => if m = name then v else w.heap ref m) else w.heap r }

/-- Allocate a fresh empty cache object (`cache={}` parameter default). -/
def allocCache (w : World) : Nat × World :=
  (w.next, { heap := fun r => if r = w.next then emptyCache else w.heap r,
             next := w.next + 1 })

/-! ### The core resolution/caching engine

`update` and `getWithUpdate` have word-for-word identical bodies in the
two source variants; they are embedded once, over the fields they read
(`QCtx`).  Each variant's instance type projects onto `QCtx`. -/

/-- One invocation of the pluggable query primitive: the root node and the
selector string passed. -/
def QueryCall : Type := Elem × String

/-- The instance fields `update`/`getWithUpdate` read: `this.root`,
`this.htmlAttr`, `this.selector`, `this.cache` (by reference), and
`this.query`. -/
structure QCtx : Type where
  root : Elem
  htmlAttr : String
  selector : Option String
  cacheRef : Nat
  query : Elem → String → JSVal

/-- Embeds `this.selector || ` `[attr="name"]` — the selector passed to the query
primitive.  A custom selector that is JS-falsy (absent, `null`, or the
empty string) falls back to the attribute selector. -/
def effSel (selector : Option String) (htmlAttr name : String) : String :=
  match selector with
  | some s => if s.isEmpty then attrSelector htmlAttr name else s
  | none => attrSelector htmlAttr name

/-- Embeds `update(name)` (without the `return this.proxy`, supplied by each
variant's wrapper): `this.cache[name] = this.query(this.root,
this.selector || ...)`.  Returns the new world and the query-call trace. -/
def qUpdate (w : World) (c : QCtx) (name : String) : World × List QueryCall :=
  let sel := effSel c.selector c.htmlAttr name
  (setCache w c.cacheRef name (c.query c.root sel), [(c.root, sel)])

/-- Embeds `getWithUpdate(name)`: return the cached value if still valid,
otherwise `this.update(name) && this.cache[name]` (`update` returns the
truthy proxy, so the conjunction yields the freshly stored value). -/
def qGetWithUpdate (w : World) (c : QCtx) (name : String) :
    JSVal × World × List QueryCall :=
  let cached := cacheAt w c.cacheRef name
  let valid := validB c.root cached
  if valid then (cached, w, [])
  else
    let (w', t) := qUpdate w c name
    (cacheAt w' c.cacheRef name, w', t)

/-- Default singular query primitive:
`(el, sel) => el.querySelector(sel)`. -/
def defaultQuery : Elem → String → JSVal := fun el sel =>
  match querySelector el sel with
  | some e => .node e
  | none => .nullv

/-- Default list query primitive:
`(el, sel) => [...el.querySelectorAll(sel)]`. -/
def defaultListQuery : Elem → String → JSVal := fun el sel =>
  .elist (querySelectorAll el sel)

/-! ### Variant V1: `src/index.js`

The constructor stores exactly `htmlAttr, listAttr, cache, query, root,
selector` on the instance (`Object.assign`); `listQuery` is NOT retained —
it is only used to construct the list sub-instance.  The proxy's `get`
trap is `this.reserved[name] || this.getWithUpdate(name)`; the `set` trap
stores into `this.reserved`. -/

/-- The fields `src/index.js` retains on an instance
(`Object.assign(this, ...)`), minus the `reserved` table. -/
structure V1Ref : Type where
  htmlAttr : String
  cacheRef : Nat
  query : Elem → String → JSVal
  root : Elem
  selector : Option String

def V1Ref.qctx (s : V1Ref) : QCtx :=
  ⟨s.root, s.htmlAttr, s.selector, s.cacheRef, s.query⟩

/-- The three bound methods installed in `this.reserved`. -/
inductive MKind : Type where
  | scope : MKind
  | select : MKind
  | update : MKind

/-- A value stored in `this.reserved`: a bound method, the list
sub-instance, or a caller-assigned value (via the `set` trap). -/
inductive RVal : Type where
  | method : MKind → RVal
  | sub : V1Ref → RVal
  | user : JSVal → RVal

/-- JS truthiness of a reserved-table entry (methods and sub-instance
proxies are objects, hence truthy). -/
def rvTruthy : RVal → Bool
  | .method _ => true
  | .sub _ => true
  | .user v => jsTruthy v

/-- A full `src/index.js` instance: retained fields, the `listAttr`
option, and the `reserved` table (missing key = `none`). -/
structure V1Inst : Type where
  core : V1Ref
  listAttr : Option String
  reserved : String → Option RVal

/-- Constructor options bag of `src/index.js`.  `none` in an outer
`Option` means the key is absent/undefined so the parameter default
applies; `listAttr := some none` models passing `listAttr: false`;
`cache` is a heap reference to an existing cache object. -/
structure V1Opts : Type where
  htmlAttr : Option String := none
  listAttr : Option (Option String) := none
  cache : Option Nat := none
  query : Option (Elem → String → JSVal) := none
  listQuery : Option (Elem → String → JSVal) := none
  selector : Option String := none

/-- Initializes the reserved table, scope / select / update, before the list sub-instance is
added. -/
def builtinReserved : String → Option RVal := fun name =>
  if name = "scope" then some (.method .scope)
  else if name = "select" then some (.method .select)
  else if name = "update" then some (.method .update)
  else none

/-- The `src/index.js` constructor.  Applies parameter defaults, enters a
shadow root, allocates a fresh cache object when none is supplied, and —
when `listAttr` is truthy — installs under `reserved[listAttr]` a list
sub-instance built by the recursive `new ElRef(root, { htmlAttr,
listAttr: false, cache, query: listQuery, selector })`: same attribute,
SAME cache reference, the list primitive as its query. -/
def V1.new (w : World) (root : Elem) (opts : V1Opts) : V1Inst × World :=
  let htmlAttr := opts.htmlAttr.getD "ref"
  let listAttr : Option String := opts.listAttr.getD (some "list")
  let root' := enterShadow root
  let query := opts.query.getD defaultQuery
  let listQuery := opts.listQuery.getD defaultListQuery
  let (cref, w') :=
    match opts.cache with
    | some r => (r, w)
    | none => allocCache w
  let core : V1Ref :=
    { htmlAttr := htmlAttr, cacheRef := cref, query := query,
      root := root', selector := opts.selector }
  let lsub : Option (String × V1Ref) :=
    match listAttr with
    | some la =>
      if la.isEmpty then none
      else
        some (la,
          { htmlAttr := htmlAttr, cacheRef := cref, query := listQuery,
            root := enterShadow root', selector := opts.selector })
    | none => none
  let reserved : String → Option RVal := fun name =>
    match lsub with
    | some (la, r) => if name = la then some (.sub r) else builtinReserved name
    | none => builtinReserved name
  (⟨core, listAttr, reserved⟩, w')

/-- Embeds `scope(root)`: `new ElRef(root, this)`.  The instance itself is the
options bag, so exactly the retained fields are passed on; in particular
`this.listQuery` does not exist, so the scoped view's list sub-instance
falls back to the default list primitive. -/
def V1.scope (w : World) (s : V1Inst) (newRoot : Elem) : V1Inst × World :=
  V1.new w newRoot
    { htmlAttr := some s.core.htmlAttr, listAttr := some s.listAttr,
      cache := some s.core.cacheRef, query := some s.core.query,
      listQuery := none, selector := s.core.selector }

/-- Embeds `select(selector)`: a new instance from a copy of the current
configuration with the custom selector swapped in. -/
def V1.select (w : World) (s : V1Inst) (sel : String) : V1Inst × World :=
  V1.new w s.core.root
    { htmlAttr := some s.core.htmlAttr, listAttr := some s.listAttr,
      cache := some s.core.cacheRef, query := some s.core.query,
      listQuery := none, selector := some sel }

/-- Embeds `update(name)` with its `return this.proxy`: the middle component is
the owning instance, returned for chaining. -/
def V1.update (w : World) (s : V1Ref) (name : String) :
    World × V1Ref × List QueryCall :=
  let (w', t) := qUpdate w s.qctx name
  (w', s, t)

/-- The result of a read through the proxy `get` trap. -/
inductive GetRes : Type where
  | fromReserved : RVal → GetRes
  | fromDom : JSVal → GetRes

/-- The `get` trap: `this.reserved[name] || this.getWithUpdate(name)`.
A missing key reads as `undefined` (falsy), and a present-but-falsy
reserved value also falls through to resolution. -/
def V1.fget (w : World) (s : V1Inst) (name : String) :
    GetRes × World × List QueryCall :=
  let fallthrough :=
    let (v, w', t) := qGetWithUpdate w s.core.qctx name
    (GetRes.fromDom v, w', t)
  match s.reserved name with
  | some r => if rvTruthy r then (.fromReserved r, w, []) else fallthrough
  | none => fallthrough

/-- The `set` trap: `this.reserved[name] = value`. -/
def V1.fset (s : V1Inst) (name : String) (v : JSVal) : V1Inst :=
  { s with reserved := fun m => if m = name then some (.user v) else s.reserved m }

/-! ### Variant V2: `src/unnamed/part_001`

This variant stores `listQuery` and a separate `listCache` on the
instance, keeps `reserved` as a list of names, and adds the async (`wait`)
machinery. -/

/-- The fields a `part_001` instance retains (`Object.assign(this, ...)`).
`reservedL` is the `reserved` name list. -/
structure V2Ref : Type where
  root : Elem
  htmlAttr : String
  listAttr : Option String
  isAsync : Bool
  pollMs : Nat
  pollMod : Nat → Nat
  selector : Option String
  cacheRef : Nat
  listCacheRef : Nat
  query : Elem → String → JSVal
  listQuery : Elem → String → JSVal
  reservedL : List String

/-- The initial `reserved` list. -/
def v2ReservedNames : List String := ["scope", "select", "update", "list", "wait"]

def V2Ref.qctx (s : V2Ref) : QCtx :=
  ⟨s.root, s.htmlAttr, s.selector, s.cacheRef, s.query⟩

/-- Embeds `get list`: a new instance from a copy of the current
configuration with the list cache and list primitive swapped in.  The
constructor re-enters the
shadow root, keeps every copied field (both cache references included),
and swaps in the list cache and list primitive. -/
def V2.list (s : V2Ref) : V2Ref :=
  { s with root := enterShadow s.root, cacheRef := s.listCacheRef,
           query := s.listQuery, reservedL := v2ReservedNames }

/-- Embeds `get wait`: a new instance from a copy of the current
configuration flagged async.  Identical configuration — same cache references — but flagged
async. -/
def V2.wait (s : V2Ref) : V2Ref :=
  { s with root := enterShadow s.root, isAsync := true,
           reservedL := v2ReservedNames }

/-- Embeds `update(name)` of `part_001` (same body as V1). -/
def V2.update (w : World) (s : V2Ref) (name : String) :
    World × V2Ref × List QueryCall :=
  let (w', t) := qUpdate w s.qctx name
  (w', s, t)

/-- How the `part_001` `get` trap dispatches a name:
`this.reserved.includes(name) ? this[name] : this.isAsync ?
this.getWithUpdateAsync(name) : this.getWithUpdate(name)`. -/
inductive V2ReadKind : Type where
  | reservedHit : V2ReadKind
  | asyncRead : V2ReadKind
  | syncRead : V2ReadKind

def V2.readKind (s : V2Ref) (name : String) : V2ReadKind :=
  if s.reservedL.contains name then .reservedHit
  else if s.isAsync then .asyncRead
  else .syncRead

/-- The `valid` check of `getWithUpdateAsync`:
`!!(Array.isArray(result) ? result.length : result)`. -/
def asyncValid : JSVal → Bool
  | .elist es => !es.isEmpty
  | v => jsTruthy v

/-- The context of a poll: the instance's configuration against the
current state `r` of the (identity-fixed, but mutable) root node. -/
def QCtx.atRoot (c : QCtx) (r : Elem) : QCtx :=
  { root := r, htmlAttr := c.htmlAttr, selector := c.selector,
    cacheRef := c.cacheRef, query := c.query }

/-- One poll of `getWithUpdateAsync`'s loop: `handle(this.getWithUpdate(name))`
against the current root state — resolve (`some`) if the result is
`asyncValid`, otherwise schedule a re-poll (`none`). -/
def pollOnce (s : V2Ref) (name : String) (root : Elem) (w : World) :
    World × Option JSVal :=
  let (v, w', _) := qGetWithUpdate w (s.qctx.atRoot root) name
  (w', if asyncValid v then some v else none)

/-- The polling process of `getWithUpdateAsync(name)`, over the sequence
`trees k` of states of the root node at each poll tick.  Tick 0 is the
immediate `query()` call in the Promise executor; each later tick is one
`window.setTimeout` re-poll.  `pollRun s name trees k w` is the world
after the polls up to tick `k` together with the promise state: `some v`
once a poll has observed an `asyncValid` result `v` (the promise resolved
with `v`), `none` while still pending.  There is no rejection or timeout
alternative: the promise only ever resolves. -/
def pollRun (s : V2Ref) (name : String) (trees : Nat → Elem) :
    Nat → World → World × Option JSVal
  | 0, w => pollOnce s name (trees 0) w
  | k + 1, w =>
    match pollRun s name trees k w with
    | (w', some v) => (w', some v)
    | (w', none) => pollOnce s name (trees (k + 1)) w'

/-! ### Supporting lemmas -/

mutual
/-- A node found by `qsNode` lies in the searched subtree. -/
theorem qsNode_contains : ∀ (e : Elem) (sel : String) (t : Elem),
    qsNode e sel = some t → containsB e t = true
  | .mk i a sh cs, sel, t => by
    intro h
    rw [qsNode] at h
    by_cases hm : selMatches sel (.mk i a sh cs)
    · rw [if_pos hm] at h
      cases h
      simp [containsB, Elem.id]
    · rw [if_neg hm] at h
      have hc := qsList_contains cs sel t h
      simp [containsB, hc]

/-- A node found by `qsList` lies in one of the searched subtrees. -/
theorem qsList_contains : ∀ (cs : List Elem) (sel : String) (t : Elem),
    qsList cs sel = some t → containsListB cs t = true
  | [], _, _ => by intro h; simp [qsList] at h
  | c :: cs, sel, t => by
    intro h
    rw [qsList] at h
    cases hq : qsNode c sel with
    | some e =>
      rw [hq] at h
      cases h
      have := qsNode_contains c sel t hq
      simp [containsListB, this]
    | none =>
      rw [hq] at h
      have := qsList_contains cs sel t h
      simp [containsListB, this]
end

/-- The function `querySelector` only returns descendants of the root. -/
theorem querySelector_contains (root : Elem) (sel : String) (t : Elem)
    (h : querySelector root sel = some t) : containsB root t = true := by
  have hc := qsList_contains root.children sel t h
  cases root with
  | mk i a sh cs => simp [containsB] at hc ⊢; right; exact hc

mutual
/-- Every node collected by `qsaNode` lies in the searched subtree. -/
theorem qsaNode_contains : ∀ (e : Elem) (sel : String) (t : Elem),
    t ∈ qsaNode e sel → containsB e t = true
  | .mk i a sh cs, sel, t => by
    intro h
    rw [qsaNode] at h
    rw [List.mem_append] at h
    cases h with
    | inl h =>
      by_cases hm : selMatches sel (.mk i a sh cs)
      · rw [if_pos hm] at h
        rw [List.mem_singleton] at h
        cases h
        simp [containsB, Elem.id]
      · rw [if_neg hm] at h
        simp at h
    | inr h =>
      have hc := qsaList_contains cs sel t h
      simp [containsB, hc]

/-- Every node collected by `qsaList` lies in one of the searched
subtrees. -/
theorem qsaList_contains : ∀ (cs : List Elem) (sel : String) (t : Elem),
    t ∈ qsaList cs sel → containsListB cs t = true
  | [], _, _ => by intro h; simp [qsaList] at h
  | c :: cs, sel, t => by
    intro h
    rw [qsaList] at h
    rw [List.mem_append] at h
    cases h with
    | inl h =>
      have := qsaNode_contains c sel t h
      simp [containsListB, this]
    | inr h =>
      have := qsaList_contains cs sel t h
      simp [containsListB, this]
end

/-- The function `querySelectorAll` only returns descendants of the root. -/
theorem querySelectorAll_contains (root : Elem) (sel : String) (t : Elem)
    (h : t ∈ querySelectorAll root sel) : containsB root t = true := by
  have hc := qsaList_contains root.children sel t h
  cases root with
  | mk i a sh cs => simp [containsB] at hc ⊢; right; exact hc

mutual
/-- The singular query is the head of the list query: both traverse in
the same preorder. -/
theorem qsNode_eq_head : ∀ (e : Elem) (sel : String),
    qsNode e sel = (qsaNode e sel).head?
  | .mk i a sh cs, sel => by
    rw [qsNode, qsaNode]
    by_cases hm : selMatches sel (.mk i a sh cs)
    · rw [if_pos hm, if_pos hm]; rfl
    · rw [if_neg hm, if_neg hm]
      rw [List.nil_append]
      exact qsList_eq_head cs sel

theorem qsList_eq_head : ∀ (cs : List Elem) (sel : String),
    qsList cs sel = (qsaList cs sel).head?
  | [], _ => by rw [qsList, qsaList]; rfl
  | c :: cs, sel => by
    rw [qsList, qsaList]
    rw [List.head?_append]
    rw [← qsNode_eq_head c sel]
    cases hq : qsNode c sel with
    | some e => rfl
    | none => simp [qsList_eq_head cs sel]
end

/-- If the list query is empty, the singular query finds nothing. -/
theorem querySelector_none_of_all_nil (root : Elem) (sel : String)
    (h : querySelectorAll root sel = []) : querySelector root sel = none := by
  rw [querySelector, qsList_eq_head, ← querySelectorAll, h]
  rfl

/-- The validity condition of `getWithUpdate`, in the words of the spec:
the normalized sequence is non-empty and every element is an actual
(non-null) node still contained in `root`. -/
def specValid (root : Elem) (v : JSVal) : Prop :=
  normalizeSeq v ≠ [] ∧
    ∀ x ∈ normalizeSeq v, ∃ e, x = JSVal.node e ∧ containsB root e = true

/-- The code's validity check decides exactly the spec's condition. -/
theorem validB_iff_specValid (root : Elem) (v : JSVal) :
    validB root v = true ↔ specValid root v := by
  cases v with
  | undef => simp [validB, normalizeSeq, elementOk, jsTruthy, specValid]
  | nullv => simp [validB, normalizeSeq, elementOk, jsTruthy, specValid]
  | bool b => simp [validB, normalizeSeq, elementOk, jsTruthy, specValid]
  | num n => simp [validB, normalizeSeq, elementOk, jsTruthy, specValid]
  | str s => simp [validB, normalizeSeq, elementOk, jsTruthy, specValid]
  | node e => simp [validB, normalizeSeq, elementOk, jsTruthy, specValid]
  | elist es =>
    simp only [validB, normalizeSeq, specValid, List.all_eq_true, List.isEmpty_eq_true,
      Bool.and_eq_true, Bool.not_eq_true', List.mem_map]
    constructor
    · rintro ⟨h1, h2⟩
      refine ⟨by simpa using h1, ?_⟩
      rintro x ⟨e, he, rfl⟩
      refine ⟨e, rfl, ?_⟩
      have := h2 _ ⟨e, he, rfl⟩
      simpa [elementOk, jsTruthy] using this
    · rintro ⟨h1, h2⟩
      refine ⟨by simpa using h1, ?_⟩
      rintro x ⟨e, he, rfl⟩
      obtain ⟨e', he', hc⟩ := h2 _ ⟨e, he, rfl⟩
      cases he'
      simpa [elementOk, jsTruthy] using hc

/-- All nodes of a valid cached value are contained in `root`. -/
def containedVal (root : Elem) : JSVal → Bool
  | .node e => containsB root e
  | .elist es => es.all (containsB root)
  | _ => true

theorem containedVal_of_validB (root : Elem) (v : JSVal)
    (h : validB root v = true) : containedVal root v = true := by
  cases v with
  | elist es =>
    simp only [validB, normalizeSeq, List.all_eq_true, Bool.and_eq_true, List.mem_map] at h
    obtain ⟨_, h2⟩ := h
    simp only [containedVal, List.all_eq_true]
    intro e he
    have := h2 _ ⟨e, he, rfl⟩
    simpa [elementOk, jsTruthy] using this
  | node e =>
    simp only [validB, normalizeSeq, List.all_eq_true, Bool.and_eq_true] at h
    obtain ⟨_, h2⟩ := h
    have := h2 _ (List.mem_singleton.mpr rfl)
    simpa [containedVal, elementOk, jsTruthy] using this
  | undef => rfl
  | nullv => rfl
  | bool b => rfl
  | num n => rfl
  | str s => rfl

/-! ### Concrete fixtures

The farm document of the repository's test suite, used by witnesses and
counterexamples: a root holding a `farm` container with one `cow`, two
`pig`s and one `goat`, addressed by `ref` attributes. -/

def cowE : Elem := .mk 2 [("ref", "cow")] none []
def pigE1 : Elem := .mk 3 [("ref", "pig")] none []
def goatE : Elem := .mk 4 [("ref", "goat")] none []
def pigE2 : Elem := .mk 5 [("ref", "pig")] none []
def farmE : Elem := .mk 1 [("ref", "farm")] none [cowE, pigE1, goatE, pigE2]
def rootE : Elem := .mk 0 [] none [farmE]

/-- A fresh default-configured `src/index.js` instance over the farm. -/
def inst1 : V1Inst := (V1.new World.empty rootE {}).1

/-- The world after that construction (one allocated cache object). -/
def w1 : World := (V1.new World.empty rootE {}).2

/-- The list sub-instance installed under `reserved[listAttr]`, if any. -/
def V1Inst.listSubBucket (s : V1Inst) : Option V1Ref :=
  match s.listAttr with
  | some la =>
    match s.reserved la with
    | some (.sub r) => some r
    | _ => none
  | none => none

/-- A read of `name` through the list-mode view (`surface.list.name`):
dispatches to the list sub-instance's `getWithUpdate`. -/
def listRead (w : World) (s : V1Inst) (name : String) : JSVal :=
  match s.listSubBucket with
  | some lr => (qGetWithUpdate w lr.qctx name).1
  | none => JSVal.undef

/-! ### Claims -/

/-- Claim C1: For every name `n`, a read through `getWithUpdate` returns the
cached value `cache[n]` as-is if and only if its normalized sequence is
non-empty and every element is non-null and still contained in `root`
(first conjunct: the code's check decides exactly that condition); in the
valid case the cached value is returned with the world untouched and no
resolver call, and otherwise the entry is recomputed via `update(n)` and
the returned value is the freshly stored `cache[n]`. -/
theorem claim1_getWithUpdate_valid_or_recompute :
    ∀ (w : World) (c : QCtx) (n : String),
      (validB c.root (cacheAt w c.cacheRef n) = true ↔
        specValid c.root (cacheAt w c.cacheRef n)) ∧
      qGetWithUpdate w c n =
        (if validB c.root (cacheAt w c.cacheRef n)
         then (cacheAt w c.cacheRef n, w, ([] : List QueryCall))
         else (cacheAt (qUpdate w c n).1 c.cacheRef n, (qUpdate w c n).1,
               (qUpdate w c n).2)) := by
  intro w c n
  refine ⟨validB_iff_specValid _ _, ?_⟩
  by_cases h : validB c.root (cacheAt w c.cacheRef n) = true
  · simp [qGetWithUpdate, h]
  · simp only [Bool.not_eq_true] at h
    simp [qGetWithUpdate, h]

/-- Witness for C1: on the farm with an empty cache, the `goat` entry is
invalid, so the read goes through `update` and returns the freshly stored
goat node. -/
theorem claim1_witness :
    qGetWithUpdate w1 inst1.core.qctx "goat" =
      (JSVal.node goatE, (qUpdate w1 inst1.core.qctx "goat").1,
       (qUpdate w1 inst1.core.qctx "goat").2) := by
  have h := (claim1_getWithUpdate_valid_or_recompute w1 inst1.core.qctx "goat").2
  rw [h]
  rfl

/-- Claim C4: For every name whose cached entry is valid, a synchronous read
returns exactly the cached reference, leaves the world untouched, makes no
resolver call, yields the same result for every query primitive (the
primitive is not consulted), and an immediately repeated read returns the
identical reference again. -/
theorem claim4_valid_read_idempotent :
    ∀ (w : World) (c : QCtx) (n : String),
      validB c.root (cacheAt w c.cacheRef n) = true →
      qGetWithUpdate w c n = (cacheAt w c.cacheRef n, w, []) ∧
      (∀ q', qGetWithUpdate w { c with query := q' } n =
        (cacheAt w c.cacheRef n, w, [])) ∧
      qGetWithUpdate (qGetWithUpdate w c n).2.1 c n =
        (cacheAt w c.cacheRef n, w, []) := by
  intro w c n h
  have h1 : qGetWithUpdate w c n = (cacheAt w c.cacheRef n, w, []) := by
    simp [qGetWithUpdate, h]
  refine ⟨h1, fun q' => by simp [qGetWithUpdate, cacheAt] at h ⊢; simp [h], ?_⟩
  rw [h1]
  exact h1

/-- Witness for C4: on the farm with a valid cached `cow` entry, the read
returns that very entry, untouched world, no resolver call. -/
def wCow : World := setCache w1 inst1.core.cacheRef "cow" (.node cowE)

theorem claim4_witness :
    validB inst1.core.root (cacheAt wCow inst1.core.cacheRef "cow") = true ∧
    qGetWithUpdate wCow inst1.core.qctx "cow" =
      (cacheAt wCow inst1.core.cacheRef "cow", wCow, []) :=
  ⟨by rfl,
   (claim4_valid_read_idempotent wCow inst1.core.qctx "cow" (by rfl)).1⟩

/-- Claim C5: `update(n)` invokes the query primitive once, against `root`
with the current effective selector; overwrites `cache[n]` with the query
result; leaves every other cache entry and every other cache object
unchanged; leaves the instance (configuration) unchanged; and returns the
owning access-surface proxy (the middle component: the instance itself,
for chaining). -/
theorem claim5_update_overwrites_one_entry :
    ∀ (w : World) (s : V1Ref) (n : String),
      V1.update w s n =
        (setCache w s.cacheRef n
          (s.query s.root (effSel s.selector s.htmlAttr n)), s,
         [(s.root, effSel s.selector s.htmlAttr n)]) ∧
      cacheAt (V1.update w s n).1 s.cacheRef n =
        s.query s.root (effSel s.selector s.htmlAttr n) ∧
      (∀ m, m ≠ n → cacheAt (V1.update w s n).1 s.cacheRef m =
        cacheAt w s.cacheRef m) ∧
      (∀ r, r ≠ s.cacheRef → (V1.update w s n).1.heap r = w.heap r) := by
  intro w s n
  refine ⟨rfl, by simp [V1.update, qUpdate, setCache, cacheAt, V1Ref.qctx], ?_, ?_⟩
  · intro m hm
    simp [V1.update, qUpdate, setCache, cacheAt, V1Ref.qctx, hm]
  · intro r hr
    simp [V1.update, qUpdate, setCache, cacheAt, V1Ref.qctx, hr]

/-- Witness for C5: updating `cow` on the farm stores the freshly queried
cow node and leaves the `pig` entry and a foreign cache object unchanged. -/
theorem claim5_witness :
    cacheAt (V1.update w1 inst1.core "cow").1 inst1.core.cacheRef "cow" =
      JSVal.node cowE ∧
    cacheAt (V1.update w1 inst1.core "cow").1 inst1.core.cacheRef "pig" =
      cacheAt w1 inst1.core.cacheRef "pig" ∧
    (V1.update w1 inst1.core "cow").1.heap 7 = w1.heap 7 := by
  refine ⟨?_, ?_, ?_⟩
  · rw [(claim5_update_overwrites_one_entry w1 inst1.core "cow").2.1]
    rfl
  · exact (claim5_update_overwrites_one_entry w1 inst1.core "cow").2.2.1 "pig"
      (by decide)
  · exact (claim5_update_overwrites_one_entry w1 inst1.core "cow").2.2.2 7
      (by decide)

/-- Claim C7: The selector passed to the query primitive is the custom
selector when one is set (a JS-truthy, i.e. non-empty, string), and
`[htmlAttr="name"]` otherwise; on a `select(sel)`-derived view every name
resolves with `sel`, regardless of the name. -/
theorem claim7_effective_selector :
    ∀ (w : World) (c : QCtx) (n : String),
      (c.selector = none →
        (qUpdate w c n).2 = [(c.root, attrSelector c.htmlAttr n)]) ∧
      (∀ sel, c.selector = some sel → sel ≠ "" →
        (qUpdate w c n).2 = [(c.root, sel)]) ∧
      (∀ (s : V1Inst) (sel n' : String), sel ≠ "" →
        (qUpdate w (V1.select w s sel).1.core.qctx n').2 =
          [((V1.select w s sel).1.core.root, sel)]) := by
  intro w c n
  refine ⟨fun h => by simp [qUpdate, effSel, h], ?_, ?_⟩
  · intro sel h hne
    have : sel.isEmpty = false := by
      cases he : sel.isEmpty
      · rfl
      · exact absurd ((String.isEmpty_iff sel).mp he) hne
    simp [qUpdate, effSel, h, this]
  · intro s sel n' hne
    have : sel.isEmpty = false := by
      cases he : sel.isEmpty
      · rfl
      · exact absurd ((String.isEmpty_iff sel).mp he) hne
    simp [qUpdate, effSel, V1.select, V1.new, V1Ref.qctx, this]

/-- Witness for C7: a `select`-derived view over the farm passes the
custom selector for an unrelated name; the default view passes the
attribute selector. -/
theorem claim7_witness :
    (qUpdate w1 (V1.select w1 inst1 "sel0").1.core.qctx "pig").2 =
      [(rootE, "sel0")] ∧
    (qUpdate w1 inst1.core.qctx "pig").2 =
      [(rootE, attrSelector "ref" "pig")] := by
  constructor
  · exact ((claim7_effective_selector w1 inst1.core.qctx "pig").2.2 inst1 "sel0"
      "pig" (by decide)).trans (by rfl)
  · exact ((claim7_effective_selector w1 inst1.core.qctx "pig").1 rfl).trans
      (by rfl)

/-- Claim C3 (amended): In `src/index.js` the `get` trap is
`this.reserved[name] || this.getWithUpdate(name)`, so a caller-assigned
value shadows resolution only while it is JS-truthy: after
`surface.n = v` with `v` truthy, every subsequent read of `n` returns `v`
verbatim with no resolver call, for any world and any later tree state,
and writes to other names do not disturb the binding.  (A falsy assigned
value falls through to resolution — see the counterexample.) -/
theorem claim3_amended_truthy_shadowing :
    ∀ (w : World) (s : V1Inst) (n : String) (v : JSVal),
      jsTruthy v = true →
      V1.fget w (V1.fset s n v) n = (.fromReserved (.user v), w, []) ∧
      (∀ m u, m ≠ n → (V1.fset (V1.fset s n v) m u).reserved n =
        some (.user v)) ∧
      (∀ (w' : World) (root' : Elem),
        V1.fget w'
          { V1.fset s n v with core := { s.core with root := root' } } n =
          (.fromReserved (.user v), w', [])) := by
  intro w s n v hv
  refine ⟨?_, ?_, ?_⟩
  · simp [V1.fget, V1.fset, rvTruthy, hv]
  · intro m u hm
    simp [V1.fset, Ne.symm hm]
  · intro w' root'
    simp [V1.fget, V1.fset, rvTruthy, hv]

/-- Witness for C3 (amended): after `surface.all = "barn"` on the farm,
reading `all` yields the string back verbatim with no resolver call. -/
theorem claim3_witness :
    V1.fget w1 (V1.fset inst1 "all" (JSVal.str "barn")) "all" =
      (.fromReserved (.user (JSVal.str "barn")), w1, []) :=
  (claim3_amended_truthy_shadowing w1 inst1 "all" (JSVal.str "barn")
    (by decide)).1

/-- Counterexample to C3 as stated: assigning the falsy value `false` to
`cow` on the farm does NOT shadow resolution — the subsequent read falls
through to `getWithUpdate`, invokes the resolver, and returns the freshly
resolved cow node instead of `false`. -/
theorem claim3_counterexample :
    (V1.fget w1 (V1.fset inst1 "cow" (JSVal.bool false)) "cow").1 =
      GetRes.fromDom (JSVal.node cowE) ∧
    (V1.fget w1 (V1.fset inst1 "cow" (JSVal.bool false)) "cow").2.2 =
      [(rootE, attrSelector "ref" "cow")] ∧
    (V1.fget w1 (V1.fset inst1 "cow" (JSVal.bool false)) "cow").1 ≠
      GetRes.fromReserved (RVal.user (JSVal.bool false)) := by
  refine ⟨by rfl, by rfl, ?_⟩
  have h1 : (V1.fget w1 (V1.fset inst1 "cow" (JSVal.bool false)) "cow").1 =
      GetRes.fromDom (JSVal.node cowE) := by rfl
  rw [h1]
  exact fun h => GetRes.noConfusion h

/-- When `e.shadow = none`, the constructor's `root.shadowRoot || root`
keeps `e` itself. -/
theorem enterShadow_eq_self (e : Elem) (h : e.shadow = none) :
    enterShadow e = e := by
  unfold enterShadow
  rw [h]

/-- The retained fields of a default-configured fresh instance. -/
theorem v1New_default_core (w0 : World) (root : Elem) :
    (V1.new w0 root {}).1.core =
      { htmlAttr := "ref", cacheRef := w0.next, query := defaultQuery,
        root := enterShadow root, selector := none } := rfl

/-- The list sub-instance of a default-configured fresh instance: same
cache reference, the default list primitive as its query. -/
theorem v1New_default_listSub (w0 : World) (root : Elem) :
    (V1.new w0 root {}).1.listSubBucket =
      some { htmlAttr := "ref", cacheRef := w0.next, query := defaultListQuery,
             root := enterShadow (enterShadow root), selector := none } := rfl

/-- A fresh default-configured instance starts with an empty cache
object: every entry reads as `undefined`. -/
theorem v1New_default_cache (w0 : World) (root : Elem) (n : String) :
    cacheAt (V1.new w0 root {}).2 w0.next n = JSVal.undef := by
  simp [V1.new, allocCache, cacheAt, emptyCache]

/-- A missing cache entry is never valid. -/
theorem validB_undef (root : Elem) : validB root JSVal.undef = false := rfl

/-- The entry `update` just stored is the query's result. -/
theorem cacheAt_qUpdate (w : World) (c : QCtx) (n : String) :
    cacheAt (qUpdate w c n).1 c.cacheRef n =
      c.query c.root (effSel c.selector c.htmlAttr n) := by
  simp [qUpdate, setCache, cacheAt]

/-- The invalid branch of `getWithUpdate`, spelled out. -/
theorem qGetWithUpdate_invalid (w : World) (c : QCtx) (n : String)
    (h : validB c.root (cacheAt w c.cacheRef n) = false) :
    qGetWithUpdate w c n =
      (c.query c.root (effSel c.selector c.htmlAttr n), (qUpdate w c n).1,
       (qUpdate w c n).2) := by
  simp [qGetWithUpdate, h, cacheAt_qUpdate]

/-- Claim C9 (amended): On a freshly constructed default view over a plain
(non-shadow) root, for every name with zero matching descendants: the
synchronous singular read returns `null` (the underlying
`querySelector`'s absent value — not `undefined`), and the synchronous
list read returns an empty ordered sequence; both are ordinary values,
not errors. -/
theorem claim9_amended_zero_matches :
    ∀ (w0 : World) (root : Elem) (n : String),
      root.shadow = none →
      querySelectorAll root (attrSelector "ref" n) = [] →
      (qGetWithUpdate (V1.new w0 root {}).2 (V1.new w0 root {}).1.core.qctx
        n).1 = JSVal.nullv ∧
      listRead (V1.new w0 root {}).2 (V1.new w0 root {}).1 n =
        JSVal.elist [] := by
  intro w0 root n hsh hqsa
  have hroot : enterShadow root = root := enterShadow_eq_self root hsh
  have hqs : querySelector root (attrSelector "ref" n) = none :=
    querySelector_none_of_all_nil root _ hqsa
  constructor
  · rw [v1New_default_core]
    have hc : cacheAt (V1.new w0 root {}).2 w0.next n = JSVal.undef :=
      v1New_default_cache w0 root n
    rw [qGetWithUpdate_invalid _ _ _ (by simp [V1Ref.qctx, hc, validB_undef])]
    simp [V1Ref.qctx, effSel, defaultQuery, hroot, hqs]
  · rw [listRead, v1New_default_listSub]
    dsimp only
    have hc : cacheAt (V1.new w0 root {}).2 w0.next n = JSVal.undef :=
      v1New_default_cache w0 root n
    rw [qGetWithUpdate_invalid _ _ _ (by simp [V1Ref.qctx, hc, validB_undef])]
    simp [V1Ref.qctx, effSel, defaultListQuery, hroot, hqsa]

/-- Witness for C9 (amended): no `sloth` in the farm — the singular read
returns `null` and the list read returns the empty sequence. -/
theorem claim9_witness :
    (qGetWithUpdate w1 inst1.core.qctx "sloth").1 = JSVal.nullv ∧
    listRead w1 inst1 "sloth" = JSVal.elist [] :=
  claim9_amended_zero_matches World.empty rootE "sloth" (by rfl) (by rfl)

/-- Counterexample to C9 as stated: the zero-match singular read returns
JS `null` (from `querySelector`), which is not `undefined`. -/
theorem claim9_counterexample :
    (qGetWithUpdate w1 inst1.core.qctx "sloth").1 = JSVal.nullv ∧
    JSVal.nullv ≠ JSVal.undef :=
  ⟨by rfl, fun h => JSVal.noConfusion h⟩

/-- Claim C6 (amended): `scope(newRoot)` yields a new instance whose root is
`newRoot` (or its shadow root), with the same `attributeName`
(`htmlAttr`), the same custom selector, and the same singular query
primitive as the parent view, touching no cache object; its list-mode
counterpart, however, reverts to the DEFAULT list primitive (the parent's
custom `listQuery`, if any, is not retained, since `src/index.js` does not
store `listQuery` on the instance — see the counterexample).  With the
default singular primitive, every read through the scoped view yields only
nodes inside `newRoot`'s subtree. -/
theorem claim6_scope_configuration :
    ∀ (w : World) (s : V1Inst) (r : Elem),
      (V1.scope w s r).1.core.root = enterShadow r ∧
      (V1.scope w s r).1.core.htmlAttr = s.core.htmlAttr ∧
      (V1.scope w s r).1.core.selector = s.core.selector ∧
      (V1.scope w s r).1.core.query = s.core.query ∧
      (V1.scope w s r).2 = w ∧
      (∀ la, s.listAttr = some la → la ≠ "" →
        ((V1.scope w s r).1.listSubBucket).map V1Ref.query =
          some defaultListQuery) ∧
      (s.core.query = defaultQuery →
        ∀ (w' : World) (n : String),
          containedVal (enterShadow r)
            (qGetWithUpdate w' (V1.scope w s r).1.core.qctx n).1 = true) := by
  intro w s r
  refine ⟨rfl, rfl, rfl, rfl, rfl, ?_, ?_⟩
  · intro la hla hne
    have hle : la.isEmpty = false := by
      cases he : la.isEmpty
      · rfl
      · exact absurd ((String.isEmpty_iff la).mp he) hne
    simp [V1.scope, V1.new, V1Inst.listSubBucket, hla, hle]
  · intro hq w' n
    by_cases h : validB (V1.scope w s r).1.core.qctx.root
        (cacheAt w' (V1.scope w s r).1.core.qctx.cacheRef n) = true
    · have hres : (qGetWithUpdate w' (V1.scope w s r).1.core.qctx n).1 =
          cacheAt w' (V1.scope w s r).1.core.qctx.cacheRef n := by
        simp [qGetWithUpdate, h]
      rw [hres]
      exact containedVal_of_validB _ _ h
    · rw [Bool.not_eq_true] at h
      rw [qGetWithUpdate_invalid w' _ n h]
      have hq' : (V1.scope w s r).1.core.qctx.query = defaultQuery := hq
      rw [hq']
      unfold defaultQuery
      cases hqs : querySelector (V1.scope w s r).1.core.qctx.root
          (effSel (V1.scope w s r).1.core.qctx.selector
            (V1.scope w s r).1.core.qctx.htmlAttr n) with
      | some e =>
        have := querySelector_contains _ _ _ hqs
        simpa [containedVal] using this
      | none => rfl

/-- Witness for C6 (amended): scoping the farm view to the `farm` element
gives a view whose list counterpart uses the default list primitive, and
whose `pig` read stays inside `farm`'s subtree. -/
theorem claim6_witness :
    ((V1.scope w1 inst1 farmE).1.listSubBucket).map V1Ref.query =
      some defaultListQuery ∧
    containedVal farmE
      (qGetWithUpdate w1 (V1.scope w1 inst1 farmE).1.core.qctx "pig").1 =
        true :=
  ⟨(claim6_scope_configuration w1 inst1 farmE).2.2.2.2.2.1 "list" rfl
      (by decide),
   (claim6_scope_configuration w1 inst1 farmE).2.2.2.2.2.2 rfl w1 "pig"⟩

/-- A list primitive distinguishable from the default one. -/
def sentinelListQuery : Elem → String → JSVal := fun _ _ => JSVal.elist [cowE]

/-- A farm instance constructed with the custom list primitive. -/
def instSentinel : V1Inst :=
  (V1.new World.empty rootE { listQuery := some sentinelListQuery }).1

def wSentinel : World :=
  (V1.new World.empty rootE { listQuery := some sentinelListQuery }).2

/-- Counterexample to C6 as stated: the parent view was configured with a
custom list query primitive, but its `scope`-derived view does not keep
it — the parent's list sub-view and the scoped view's list sub-view give
different results on identical input, so the scoped instance does not
have the same single/list query-primitive configuration as its parent. -/
theorem claim6_counterexample :
    (instSentinel.listSubBucket).map (fun lr => lr.query rootE "q") =
      some (JSVal.elist [cowE]) ∧
    ((V1.scope wSentinel instSentinel rootE).1.listSubBucket).map
      (fun lr => lr.query rootE "q") = some (JSVal.elist []) ∧
    some (JSVal.elist [cowE]) ≠ some (JSVal.elist []) := by
  refine ⟨by rfl, by rfl, ?_⟩
  simp [cowE]

/-- Claim C10: Views derived via `scope` and `select` (V1) and via `wait`
(V2) share the parent's cache object by reference: the derived instance
carries the very same cache reference (and `wait` also the same list
cache reference), no cache object is copied or allocated, an `update`
through the derived view overwrites the entry the parent subsequently
observes, and a value stored through the derived view's cache reference
is visible through the parent's. -/
theorem claim10_derived_views_share_cache :
    ∀ (w : World) (s : V1Inst) (r : Elem) (sel : String) (s2 : V2Ref),
      (V1.scope w s r).1.core.cacheRef = s.core.cacheRef ∧
      (V1.scope w s r).2 = w ∧
      (V1.select w s sel).1.core.cacheRef = s.core.cacheRef ∧
      (V1.select w s sel).2 = w ∧
      (V2.wait s2).cacheRef = s2.cacheRef ∧
      (V2.wait s2).listCacheRef = s2.listCacheRef ∧
      (∀ n, cacheAt (V1.update w (V1.scope w s r).1.core n).1 s.core.cacheRef
          n =
        s.core.query (enterShadow r)
          (effSel s.core.selector s.core.htmlAttr n)) ∧
      (∀ n v, cacheAt (setCache w (V1.select w s sel).1.core.cacheRef n v)
        s.core.cacheRef n = v) := by
  intro w s r sel s2
  refine ⟨rfl, rfl, rfl, rfl, rfl, rfl, ?_, ?_⟩
  · intro n
    simp [V1.update, qUpdate, setCache, cacheAt, V1.scope, V1.new, V1Ref.qctx]
  · intro n v
    simp [setCache, cacheAt, V1.select, V1.new]

/-- Witness for C10: updating `goat` through a view scoped to `farm`
overwrites the entry the parent farm view reads. -/
theorem claim10_witness :
    cacheAt (V1.update w1 (V1.scope w1 inst1 farmE).1.core "goat").1
      inst1.core.cacheRef "goat" = JSVal.node goatE :=
  ((claim10_derived_views_share_cache w1 inst1 farmE "x"
    (V2.list { root := rootE, htmlAttr := "ref", listAttr := some "list",
               isAsync := false, pollMs := 2, pollMod := id, selector := none,
               cacheRef := 0, listCacheRef := 1, query := defaultQuery,
               listQuery := defaultListQuery,
               reservedL := v2ReservedNames })).2.2.2.2.2.2.1 "goat").trans
    (by rfl)

/-- Claim C2 (code-bug evaluation): In `src/index.js` the list sub-instance
is constructed with the PARENT's cache object (`cache` is passed through),
so the two views share one storage bucket: the sub-instance carries the
same cache reference, and after a singular read of `pig` has cached the
single pig node, a list read of `pig` returns that same single node — not
an array — because the shared entry passes the validity check.  (On a
fresh cache the same list read returns the proper two-pig array, shown for
contrast; the async variant `part_001` instead gives the list view its own
`listCache`.) -/
theorem claim2_list_cache_shared_bug :
    (inst1.listSubBucket).map V1Ref.cacheRef = some inst1.core.cacheRef ∧
    listRead w1 inst1 "pig" = JSVal.elist [pigE1, pigE2] ∧
    listRead (V1.fget w1 inst1 "pig").2.1 inst1 "pig" = JSVal.node pigE1 := by
  refine ⟨by rfl, by rfl, by rfl⟩

/-- After any `getWithUpdate`, the returned value is exactly what the
cache now holds for that name. -/
theorem qGetWithUpdate_cache (w : World) (c : QCtx) (n : String) :
    cacheAt (qGetWithUpdate w c n).2.1 c.cacheRef n = (qGetWithUpdate w c n).1 := by
  by_cases h : validB c.root (cacheAt w c.cacheRef n) = true
  · simp [qGetWithUpdate, h]
  · rw [Bool.not_eq_true] at h
    rw [qGetWithUpdate_invalid _ _ _ h]
    exact cacheAt_qUpdate w c n

/-- A `null` cache entry is never valid. -/
theorem validB_nullv (root : Elem) : validB root JSVal.nullv = false := rfl

/-- A resolving poll leaves the resolved value in the cache, and only an
`asyncValid` value resolves. -/
theorem pollOnce_resolved (s : V2Ref) (nm : String) (root : Elem) (w : World)
    (w' : World) (v : JSVal) (h : pollOnce s nm root w = (w', some v)) :
    cacheAt w' s.cacheRef nm = v ∧ asyncValid v = true := by
  have hc := qGetWithUpdate_cache w (s.qctx.atRoot root) nm
  rcases hq : qGetWithUpdate w (s.qctx.atRoot root) nm with ⟨v0, w0, t0⟩
  rw [hq] at hc
  unfold pollOnce at h
  rw [hq] at h
  dsimp only at h hc
  by_cases ha : asyncValid v0 = true
  · rw [ha] at h
    simp only [if_true] at h
    injection h with hw hv
    injection hv with hv
    subst hw
    subst hv
    exact ⟨hc, ha⟩
  · rw [Bool.not_eq_true] at ha
    rw [ha] at h
    simp at h

/-- A poll that sees an invalid entry, the default query primitive, and a
tree without a match stores `null` and stays pending. -/
theorem pollOnce_no_match (s : V2Ref) (nm : String) (root : Elem) (w : World)
    (hq : s.query = defaultQuery)
    (h0 : validB root (cacheAt w s.cacheRef nm) = false)
    (hqs : querySelector root (effSel s.selector s.htmlAttr nm) = none) :
    pollOnce s nm root w = ((qUpdate w (s.qctx.atRoot root) nm).1, none) ∧
    cacheAt (pollOnce s nm root w).1 s.cacheRef nm = JSVal.nullv := by
  have h0' : validB (s.qctx.atRoot root).root
      (cacheAt w (s.qctx.atRoot root).cacheRef nm) = false := h0
  have hval : (s.qctx.atRoot root).query (s.qctx.atRoot root).root
      (effSel (s.qctx.atRoot root).selector (s.qctx.atRoot root).htmlAttr nm) =
        JSVal.nullv := by
    show s.query root (effSel s.selector s.htmlAttr nm) = JSVal.nullv
    rw [hq]
    unfold defaultQuery
    rw [hqs]
  have hgw := qGetWithUpdate_invalid w (s.qctx.atRoot root) nm h0'
  have h1 : pollOnce s nm root w = ((qUpdate w (s.qctx.atRoot root) nm).1, none) := by
    unfold pollOnce
    rw [hgw]
    dsimp only
    rw [hval]
    rfl
  refine ⟨h1, ?_⟩
  rw [h1]
  exact (cacheAt_qUpdate w (s.qctx.atRoot root) nm).trans hval

/-- Once a poll run has resolved, later ticks change nothing. -/
theorem pollRun_stable (s : V2Ref) (nm : String) (trees : Nat → Elem)
    (w : World) (k : Nat) (w' : World) (v : JSVal)
    (h : pollRun s nm trees k w = (w', some v)) :
    ∀ j, pollRun s nm trees (k + j) w = (w', some v) := by
  intro j
  induction j with
  | zero => exact h
  | succ j ih =>
    show pollRun s nm trees ((k + j) + 1) w = (w', some v)
    simp only [pollRun]
    rw [ih]

/-- When a poll run has resolved with `v`, the cache entry holds `v`. -/
theorem pollRun_resolved_cache (s : V2Ref) (nm : String) (trees : Nat → Elem)
    (w : World) :
    ∀ (k : Nat) (w' : World) (v : JSVal),
      pollRun s nm trees k w = (w', some v) →
      cacheAt w' s.cacheRef nm = v := by
  intro k
  induction k with
  | zero =>
    intro w' v h
    simp only [pollRun] at h
    exact (pollOnce_resolved s nm (trees 0) w w' v h).1
  | succ k ih =>
    intro w' v h
    simp only [pollRun] at h
    rcases hp : pollRun s nm trees k w with ⟨wk, r⟩
    rw [hp] at h
    cases r with
    | some vk =>
      dsimp only at h
      injection h with hw hv
      injection hv with hv
      subst hw
      subst hv
      exact ih wk vk hp
    | none =>
      dsimp only at h
      exact (pollOnce_resolved s nm (trees (k + 1)) wk w' v h).1

/-- If the initial entry is invalid, the query primitive is the default
one, and no tick's tree ever has a match, every poll stores `null` and
the run stays pending at every tick. -/
theorem pollRun_never_matches (s : V2Ref) (nm : String) (trees : Nat → Elem)
    (w : World) (hq : s.query = defaultQuery)
    (h0 : validB (trees 0) (cacheAt w s.cacheRef nm) = false)
    (hqs : ∀ k, querySelector (trees k) (effSel s.selector s.htmlAttr nm) = none) :
    ∀ k, (pollRun s nm trees k w).2 = none ∧
      cacheAt (pollRun s nm trees k w).1 s.cacheRef nm = JSVal.nullv := by
  intro k
  induction k with
  | zero =>
    simp only [pollRun]
    obtain ⟨h1, h2⟩ := pollOnce_no_match s nm (trees 0) w hq h0 (hqs 0)
    exact ⟨by rw [h1], h2⟩
  | succ k ih =>
    obtain ⟨ih1, ih2⟩ := ih
    simp only [pollRun]
    rcases hp : pollRun s nm trees k w with ⟨wk, r⟩
    rw [hp] at ih1 ih2
    dsimp only at ih1 ih2
    cases r with
    | some vk => exact absurd ih1 (by simp)
    | none =>
      have h0' : validB (trees (k + 1)) (cacheAt wk s.cacheRef nm) = false := by
        rw [ih2]
        exact validB_nullv _
      obtain ⟨h1, h2⟩ := pollOnce_no_match s nm (trees (k + 1)) wk hq h0' (hqs (k + 1))
      exact ⟨by dsimp only; rw [h1], by dsimp only; exact h2⟩

/-- Claim C8: A read of `n` through a `wait`-derived view: the wait view
shares the parent's synchronous cache reference and dispatches
non-reserved names to the polling path; the pending result completes
exactly when a poll of `getWithUpdate(n)` observes a non-empty
(`asyncValid`) result, completing with that value — a poll that observes
an empty result leaves it pending (there is no rejection or timeout
branch); resolution is stable; once completed, the shared synchronous
cache entry holds the resolved value, so a synchronous read through the
parent view returns it with no resolver call while it remains valid; and
if no match ever appears (and none is validly cached), the run stays
pending at every tick. -/
theorem claim8_wait_pending_resolution :
    ∀ (s : V2Ref) (n : String) (trees : Nat → Elem) (w : World),
      (V2.wait s).cacheRef = s.cacheRef ∧
      (v2ReservedNames.contains n = false →
        V2.readKind (V2.wait s) n = .asyncRead) ∧
      (∀ k w' v w2 t,
        pollRun (V2.wait s) n trees k w = (w', none) →
        qGetWithUpdate w' ((V2.wait s).qctx.atRoot (trees (k + 1))) n =
          (v, w2, t) →
        pollRun (V2.wait s) n trees (k + 1) w =
          (w2, if asyncValid v then some v else none)) ∧
      (∀ k j w' v, pollRun (V2.wait s) n trees k w = (w', some v) →
        pollRun (V2.wait s) n trees (k + j) w = (w', some v)) ∧
      (∀ k w' v, pollRun (V2.wait s) n trees k w = (w', some v) →
        cacheAt w' s.cacheRef n = v) ∧
      (∀ k w' v r', pollRun (V2.wait s) n trees k w = (w', some v) →
        validB r' v = true →
        qGetWithUpdate w' (s.qctx.atRoot r') n = (v, w', [])) ∧
      (s.query = defaultQuery →
        validB (trees 0) (cacheAt w s.cacheRef n) = false →
        (∀ k, querySelector (trees k) (effSel s.selector s.htmlAttr n) = none) →
        ∀ k, (pollRun (V2.wait s) n trees k w).2 = none) := by
  intro s n trees w
  refine ⟨rfl, ?_, ?_, ?_, ?_, ?_, ?_⟩
  · intro h
    have h' : ¬ n ∈ v2ReservedNames := by simpa using h
    simp [V2.readKind, V2.wait, h']
  · intro k w' v w2 t hpend hq
    simp only [pollRun]
    rw [hpend]
    dsimp only
    unfold pollOnce
    rw [hq]
  · intro k j w' v h
    exact pollRun_stable _ _ _ _ _ _ _ h j
  · intro k w' v h
    exact pollRun_resolved_cache (V2.wait s) n trees w k w' v h
  · intro k w' v r' h hv
    have hc : cacheAt w' s.cacheRef n = v :=
      pollRun_resolved_cache (V2.wait s) n trees w k w' v h
    have hvv : validB ((s.qctx.atRoot r').root)
        (cacheAt w' ((s.qctx.atRoot r').cacheRef) n) = true := by
      show validB r' (cacheAt w' s.cacheRef n) = true
      rw [hc]
      exact hv
    simp only [qGetWithUpdate, hvv, if_true]
    show (cacheAt w' s.cacheRef n, w', []) = (v, w', [])
    rw [hc]
  · intro hq h0 hqs k
    exact (pollRun_never_matches (V2.wait s) n trees w hq h0 hqs k).1

/-- The V2 farm instance used by the C8 witness. -/
def v2Base : V2Ref :=
  { root := rootE, htmlAttr := "ref", listAttr := some "list",
    isAsync := false, pollMs := 2, pollMod := fun x => x * 2, selector := none,
    cacheRef := 0, listCacheRef := 1, query := defaultQuery,
    listQuery := defaultListQuery, reservedL := v2ReservedNames }

/-- The sloth that is appended to the farm while the promise is pending. -/
def slothE : Elem := .mk 9 [("ref", "sloth")] none []

def rootSloth : Elem :=
  .mk 0 [] none [Elem.mk 1 [("ref", "farm")] none [cowE, pigE1, goatE, pigE2, slothE]]

/-- Tree history: no sloth at tick 0, sloth attached from tick 1 on. -/
def treesSloth : Nat → Elem := fun k => if k = 0 then rootE else rootSloth

/-- Tree history in which the sloth never appears. -/
def treesNever : Nat → Elem := fun _ => rootE

/-- World after the failed tick-0 poll (`null` stored for `sloth`). -/
def wPend : World := setCache w1 0 "sloth" JSVal.nullv

/-- World after the successful tick-1 poll (the sloth node stored). -/
def wRes : World := setCache wPend 0 "sloth" (JSVal.node slothE)

/-- Witness for C8: with the sloth appearing at tick 1, the pending read
resolves at tick 1 with the sloth node; with no sloth ever appearing, the
read is still pending at tick 2; and after resolution the synchronous
read through the parent returns the sloth with no resolver call. -/
theorem claim8_witness :
    pollRun (V2.wait v2Base) "sloth" treesSloth 1 w1 =
      (wRes, some (JSVal.node slothE)) ∧
    (pollRun (V2.wait v2Base) "sloth" treesNever 2 w1).2 = none ∧
    qGetWithUpdate wRes (v2Base.qctx.atRoot rootSloth) "sloth" =
      (JSVal.node slothE, wRes, []) := by
  refine ⟨?_, ?_, ?_⟩
  · exact ((claim8_wait_pending_resolution v2Base "sloth" treesSloth w1).2.2.1
      0 wPend (JSVal.node slothE) wRes
      [(rootSloth, attrSelector "ref" "sloth")] (by rfl) (by rfl)).trans (by rfl)
  · exact (claim8_wait_pending_resolution v2Base "sloth" treesNever
      w1).2.2.2.2.2.2 rfl (by rfl) (fun k => rfl) 2
  · exact (claim8_wait_pending_resolution v2Base "sloth" treesSloth
      w1).2.2.2.2.2.1 1 wRes (JSVal.node slothE) rootSloth (by rfl) (by rfl)
end ElRefSpec
